import Mathlib

/-!
Verification of the miscalibration-error core from
`miscalibration_error.ipynb`: the smoothed Kullback-Leibler divergence
scorer `KullbackLeiblerDivergence` and the category-distribution
aggregator `ComputeGenreDistribution`, embedded shallowly over the real
numbers.  Python list/array index accesses that would raise an
`IndexError` are modelled by `Option` (`none` = raised error); the
in-place mutation of `recommendedDist` is modelled by threading the list
through the loop and returning the final list alongside the score.
-/

open Real

/-- The loop body of `KullbackLeiblerDivergence`.  `kldGo alpha p l acc q`
iterates over the index list `l` (the Python `for i in range(len(interactDist))`
supplies `l = List.range p.length`).  An index where `p` reads `0.0` is
skipped; otherwise the smoothed value `(1-alpha)*q[i] + alpha*p[i]` is
written back into `q` (the source mutates `recommendedDist[i]` in place)
and the term `p[i] * log2 (p[i] / q[i])` (with the freshly written `q[i]`)
is added to the accumulator.  An out-of-range read is `none`. -/
noncomputable def kldGo (alpha : ℝ) (p : List ℝ) : List ℕ → ℝ → List ℝ → Option (ℝ × List ℝ)
  | [], acc, q => some (acc, q)
  | i :: rest, acc, q =>
    match p.get? i with
    | none => none
    | some pv =>
      if pv = 0 then kldGo alpha p rest acc q
      else
        match q.get? i with
        | none => none
        | some qv =>
          kldGo alpha p rest (acc + pv * Real.logb 2 (pv / ((1 - alpha) * qv + alpha * pv)))
            (q.set i ((1 - alpha) * qv + alpha * pv))

/-- `KullbackLeiblerDivergence(interactDist, recommendedDist)` from the
notebook: `alpha = 0.01` is hard-coded, the loop runs over
`range(len(interactDist))` starting from `klDive = 0.0`.  The result is
the returned score paired with the final (mutated) `recommendedDist`. -/
noncomputable def KullbackLeiblerDivergence (interactDist recommendedDist : List ℝ) :
    Option (ℝ × List ℝ) :=
  kldGo (1 / 100) interactDist (List.range interactDist.length) 0 recommendedDist

/-- The mathematical term contributed by index `i` to the score, phrased
against the original (pre-mutation) lists: zero when `p` is zero at `i`,
otherwise `p[i] * log2 (p[i] / ((1-alpha)*q[i] + alpha*p[i]))`. -/
noncomputable def klTerm (alpha : ℝ) (p q : List ℝ) (i : ℕ) : ℝ :=
  if p.getD i 0 = 0 then 0
  else p.getD i 0 * Real.logb 2 (p.getD i 0 / ((1 - alpha) * q.getD i 0 + alpha * p.getD i 0))

/-- The total score of the scorer as a sum of per-index terms over the
original inputs. -/
noncomputable def klScore (p q : List ℝ) : ℝ :=
  ((List.range p.length).map (klTerm (1 / 100) p q)).sum

/-- Numpy fancy indexing `P[itemList, :]`: the selected rows in order,
`none` when some id is out of range (numpy raises `IndexError`).
Duplicate ids select their row once per occurrence. -/
def selectRows (itemList : List ℕ) (P : List (List ℝ)) : Option (List (List ℝ)) :=
  match itemList with
  | [] => some []
  | i :: rest =>
    match P.get? i, selectRows rest P with
    | some row, some rows => some (row :: rows)
    | _, _ => none

/-- Number of columns of the (rectangular) matrix `P`. -/
def ncols (P : List (List ℝ)) : ℕ := (P.headD []).length

/-- Numpy `.sum(axis=0)` over a list of rows of common length `nc`:
element-wise sum, starting from the zero row. -/
noncomputable def sumRows (nc : ℕ) (rows : List (List ℝ)) : List ℝ :=
  rows.foldl (fun acc r => List.zipWith (· + ·) acc r) (List.replicate nc 0)

/-- `ComputeGenreDistribution(itemList, p_g_i_final)` from the notebook:
`p_g_i_final[itemList,:].sum(axis=0) / len(itemList)`.  Note there is no
emptiness check: for `itemList = []` the division is by zero (numpy
produces a NaN row; in the real-number model `x / 0 = 0`). -/
noncomputable def ComputeGenreDistribution (itemList : List ℕ) (P : List (List ℝ)) :
    Option (List ℝ) :=
  (selectRows itemList P).map (fun rows =>
    (sumRows (ncols P) rows).map (fun x => x / (itemList.length : ℝ)))

theorem kldGo_spec (alpha : ℝ) (p q0 : List ℝ) (l : List ℕ) :
    ∀ (acc : ℝ) (q : List ℝ),
      l.Nodup →
      (∀ i ∈ l, i < p.length) →
      (∀ i ∈ l, i < q.length) →
      (∀ i ∈ l, q.get? i = q0.get? i) →
      ∃ qf, kldGo alpha p l acc q = some (acc + (l.map (klTerm alpha p q0)).sum, qf) ∧
        qf.length = q.length ∧
        (∀ j, j ∈ l → p.getD j 0 ≠ 0 →
          qf.get? j = some ((1 - alpha) * q0.getD j 0 + alpha * p.getD j 0)) ∧
        (∀ j, ¬(j ∈ l ∧ p.getD j 0 ≠ 0) → qf.get? j = q.get? j) := by
  induction l with
  | nil =>
    intro acc q _ _ _ _
    exact ⟨q, by simp [kldGo], rfl, by simp, fun j _ => rfl⟩
  | cons i rest ih =>
    intro acc q hnd hp hq hagree
    have hip : i < p.length := hp i (List.mem_cons_self i rest)
    have hiq : i < q.length := hq i (List.mem_cons_self i rest)
    have hirest : i ∉ rest := (List.nodup_cons.mp hnd).1
    have hndr : rest.Nodup := (List.nodup_cons.mp hnd).2
    have hpget : p.get? i = some (p.getD i 0) := by
      rw [List.getD_eq_getElem _ _ hip, List.get?_eq_getElem?, List.getElem?_eq_getElem hip]
    have hq0get : q0.get? i = some (q0.getD i 0) := by
      have h1 : q.get? i = q0.get? i := hagree i (List.mem_cons_self i rest)
      have h2 : ∃ v, q.get? i = some v := by
        rw [List.get?_eq_getElem?, List.getElem?_eq_getElem hiq]
        exact ⟨_, rfl⟩
      obtain ⟨v, hv⟩ := h2
      rw [h1] at hv
      rw [hv, List.getD_eq_getD_get?, hv]
      rfl
    have hqget : q.get? i = some (q0.getD i 0) := by
      rw [hagree i (List.mem_cons_self i rest), hq0get]
    by_cases hpz : p.getD i 0 = 0
    · have hrec := ih acc q hndr
        (fun j hj => hp j (List.mem_cons_of_mem i hj))
        (fun j hj => hq j (List.mem_cons_of_mem i hj))
        (fun j hj => hagree j (List.mem_cons_of_mem i hj))
      obtain ⟨qf, h1, h2, h3, h4⟩ := hrec
      refine ⟨qf, ?_, h2, ?_, ?_⟩
      · simp only [kldGo, hpget, if_pos hpz]
        rw [h1]
        have hterm : klTerm alpha p q0 i = 0 := by rw [klTerm, if_pos hpz]
        simp only [List.map_cons, List.sum_cons, hterm, zero_add]
      · intro j hj hpj
        rcases List.mem_cons.mp hj with rfl | hj2
        · exact absurd hpz hpj
        · exact h3 j hj2 hpj
      · intro j hj
        refine h4 j ?_
        rintro ⟨hj1, hj2⟩
        exact hj ⟨List.mem_cons_of_mem i hj1, hj2⟩
    · set qt := (1 - alpha) * q0.getD i 0 + alpha * p.getD i 0 with hqt
      have hrec := ih (acc + p.getD i 0 * Real.logb 2 (p.getD i 0 / qt)) (q.set i qt) hndr
        (fun j hj => hp j (List.mem_cons_of_mem i hj))
        (fun j hj => by rw [List.length_set]; exact hq j (List.mem_cons_of_mem i hj))
        (fun j hj => by
          rw [List.get?_set_ne qt q (fun h => hirest (by rw [h]; exact hj))]
          exact hagree j (List.mem_cons_of_mem i hj))
      obtain ⟨qf, h1, h2, h3, h4⟩ := hrec
      refine ⟨qf, ?_, by rw [h2, List.length_set], ?_, ?_⟩
      · simp only [kldGo, hpget, if_neg hpz, hqget]
        rw [h1]
        have hterm : klTerm alpha p q0 i = p.getD i 0 * Real.logb 2 (p.getD i 0 / qt) := by
          rw [klTerm, if_neg hpz]
        simp only [List.map_cons, List.sum_cons, hterm]
        ring_nf
      · intro j hj hpj
        rcases List.mem_cons.mp hj with rfl | hj2
        · have : qf.get? j = (q.set j qt).get? j := by
            refine h4 j ?_
            rintro ⟨hj1, _⟩
            exact hirest hj1
          rw [this, List.get?_set_eq_of_lt qt hiq]
        · exact h3 j hj2 hpj
      · intro j hj
        have hji : j ≠ i := by
          rintro rfl
          exact hj ⟨List.mem_cons_self j rest, hpz⟩
        have : qf.get? j = (q.set i qt).get? j := by
          refine h4 j ?_
          rintro ⟨hj1, hj2⟩
          exact hj ⟨List.mem_cons_of_mem i hj1, hj2⟩
        rw [this, List.get?_set_ne qt q (fun h => hji h.symm)]

/-- Top-level form of the scorer when `q` is at least as long as `p`: it returns
`klScore p q` together with the in-place-smoothed list. -/
theorem KLD_eq_spec (p q : List ℝ) (h : p.length ≤ q.length) :
    ∃ qf, KullbackLeiblerDivergence p q = some (klScore p q, qf) ∧
      qf.length = q.length ∧
      (∀ j, j < p.length → p.getD j 0 ≠ 0 →
        qf.get? j = some ((1 - 1 / 100) * q.getD j 0 + (1 / 100) * p.getD j 0)) ∧
      (∀ j, ¬(j < p.length ∧ p.getD j 0 ≠ 0) → qf.get? j = q.get? j) := by
  obtain ⟨qf, h1, h2, h3, h4⟩ := kldGo_spec (1 / 100) p q (List.range p.length) 0 q
    (List.nodup_range _)
    (fun i hi => List.mem_range.mp hi)
    (fun i hi => lt_of_lt_of_le (List.mem_range.mp hi) h)
    (fun i _ => rfl)
  refine ⟨qf, ?_, h2, ?_, ?_⟩
  · rw [KullbackLeiblerDivergence, h1, zero_add, klScore]
  · intro j hj hpj
    exact h3 j (List.mem_range.mpr hj) hpj
  · intro j hj
    refine h4 j ?_
    rintro ⟨hj1, hj2⟩
    exact hj ⟨List.mem_range.mp hj1, hj2⟩

/-- Scoring a distribution against itself gives a sum of zero terms. -/
theorem klScore_self (p : List ℝ) : klScore p p = 0 := by
  rw [klScore]
  apply List.sum_eq_zero
  intro x hx
  obtain ⟨i, hi, rfl⟩ := List.mem_map.mp hx
  rw [klTerm]
  by_cases hpz : p.getD i 0 = 0
  · rw [if_pos hpz]
  · rw [if_neg hpz]
    have h : (1 - 1 / 100 : ℝ) * p.getD i 0 + (1 / 100) * p.getD i 0 = p.getD i 0 := by ring
    rw [h, div_self hpz, Real.logb_one, mul_zero]

/-- The returned score only reads `q` at indices where `p` is non-zero. -/
theorem kldGo_congr (alpha : ℝ) (p : List ℝ) (l : List ℕ) :
    ∀ (acc : ℝ) (q1 q2 : List ℝ), q1.length = q2.length →
      (∀ i, p.getD i 0 ≠ 0 → q1.get? i = q2.get? i) →
      (kldGo alpha p l acc q1).map Prod.fst = (kldGo alpha p l acc q2).map Prod.fst := by
  induction l with
  | nil => intro acc q1 q2 _ _; simp [kldGo]
  | cons i rest ih =>
    intro acc q1 q2 hlen hagree
    cases hp : p.get? i with
    | none => simp only [kldGo, hp]
    | some pv =>
      by_cases hpz : pv = 0
      · simp only [kldGo, hp, if_pos hpz]
        exact ih acc q1 q2 hlen hagree
      · have hpd : p.getD i 0 = pv := by rw [List.getD_eq_getD_get?, hp]; rfl
        have hag : q1.get? i = q2.get? i := hagree i (by rw [hpd]; exact hpz)
        simp only [kldGo, hp, if_neg hpz]
        cases hq1 : q1.get? i with
        | none =>
          have hq2 : q2.get? i = none := by rw [← hag, hq1]
          simp only [hq1, hq2]
        | some qv =>
          have hq2 : q2.get? i = some qv := by rw [← hag, hq1]
          simp only [hq1, hq2]
          apply ih
          · rw [List.length_set, List.length_set, hlen]
          · intro m hm
            by_cases hmi : m = i
            · subst hmi
              obtain ⟨hm1, _⟩ := List.get?_eq_some.mp hq1
              rw [List.get?_set_eq_of_lt _ hm1, List.get?_set_eq_of_lt _ (hlen ▸ hm1)]
            · rw [List.get?_set_ne _ _ (fun h => hmi h.symm),
                List.get?_set_ne _ _ (fun h => hmi h.symm)]
              exact hagree m hm

/-- When every entry of `p` is zero the loop skips every index. -/
theorem kldGo_zero (alpha : ℝ) (p : List ℝ) (hz : ∀ x ∈ p, x = 0) (l : List ℕ)
    (hl : ∀ i ∈ l, i < p.length) :
    ∀ (acc : ℝ) (q : List ℝ), kldGo alpha p l acc q = some (acc, q) := by
  induction l with
  | nil => intro acc q; simp [kldGo]
  | cons i rest ih =>
    intro acc q
    have hip : i < p.length := hl i (List.mem_cons_self i rest)
    have hget : p.get? i = some (p.getD i 0) := by
      rw [List.getD_eq_getElem _ _ hip, List.get?_eq_getElem?, List.getElem?_eq_getElem hip]
    have hzero : p.getD i 0 = 0 := by
      rw [List.getD_eq_getElem _ _ hip]
      exact hz _ (List.getElem_mem _)
    simp only [kldGo, hget, if_pos hzero]
    exact ih (fun j hj => hl j (List.mem_cons_of_mem i hj)) acc q

/-- The loop fails exactly when it reaches an index with a non-zero `p` entry
that is out of range for `q`. -/
theorem kldGo_none_iff (alpha : ℝ) (p : List ℝ) (l : List ℕ) :
    ∀ (acc : ℝ) (q : List ℝ), (∀ i ∈ l, i < p.length) →
      (kldGo alpha p l acc q = none ↔ ∃ i ∈ l, p.getD i 0 ≠ 0 ∧ q.length ≤ i) := by
  induction l with
  | nil => intro acc q _; simp [kldGo]
  | cons i rest ih =>
    intro acc q hl
    have hip : i < p.length := hl i (List.mem_cons_self i rest)
    have hget : p.get? i = some (p.getD i 0) := by
      rw [List.getD_eq_getElem _ _ hip, List.get?_eq_getElem?, List.getElem?_eq_getElem hip]
    have hlr : ∀ j ∈ rest, j < p.length := fun j hj => hl j (List.mem_cons_of_mem i hj)
    by_cases hpz : p.getD i 0 = 0
    · simp only [kldGo, hget, if_pos hpz]
      rw [ih acc q hlr]
      constructor
      · rintro ⟨m, hm, hmn, hmq⟩
        exact ⟨m, List.mem_cons_of_mem i hm, hmn, hmq⟩
      · rintro ⟨m, hm, hmn, hmq⟩
        rcases List.mem_cons.mp hm with rfl | hm2
        · exact absurd hpz hmn
        · exact ⟨m, hm2, hmn, hmq⟩
    · simp only [kldGo, hget, if_neg hpz]
      cases hq : q.get? i with
      | none =>
        have hlen : q.length ≤ i := by
          by_contra hcon
          push_neg at hcon
          rw [List.get?_eq_getElem?, List.getElem?_eq_getElem hcon] at hq
          exact Option.noConfusion hq
        simp only [true_iff, iff_true]
        exact ⟨i, List.mem_cons_self i rest, hpz, hlen⟩
      | some qv =>
        have hilt : i < q.length := by
          by_contra hcon
          push_neg at hcon
          rw [List.get?_eq_getElem?, List.getElem?_eq_none_iff.mpr hcon] at hq
          exact Option.noConfusion hq
        rw [ih _ _ hlr]
        constructor
        · rintro ⟨m, hm, hmn, hmq⟩
          rw [List.length_set] at hmq
          exact ⟨m, List.mem_cons_of_mem i hm, hmn, hmq⟩
        · rintro ⟨m, hm, hmn, hmq⟩
          rcases List.mem_cons.mp hm with rfl | hm2
          · omega
          · exact ⟨m, hm2, hmn, by rw [List.length_set]; exact hmq⟩

theorem zipWith_add_getD (l1 l2 : List ℝ) (h : l1.length = l2.length) (c : ℕ) :
    (List.zipWith (· + ·) l1 l2).getD c 0 = l1.getD c 0 + l2.getD c 0 := by
  induction l1 generalizing l2 c with
  | nil =>
    cases l2 with
    | nil => simp
    | cons b bs => simp at h
  | cons a as ih =>
    cases l2 with
    | nil => simp at h
    | cons b bs =>
      cases c with
      | zero => simp
      | succ c =>
        simp only [List.zipWith_cons_cons, List.getD_cons_succ]
        exact ih bs (by simpa using h) c

theorem zipWith_add_sum (l1 l2 : List ℝ) (h : l1.length = l2.length) :
    (List.zipWith (· + ·) l1 l2).sum = l1.sum + l2.sum := by
  induction l1 generalizing l2 with
  | nil =>
    cases l2 with
    | nil => simp
    | cons b bs => simp at h
  | cons a as ih =>
    cases l2 with
    | nil => simp at h
    | cons b bs =>
      simp only [List.zipWith_cons_cons, List.sum_cons]
      rw [ih bs (by simpa using h)]
      ring

theorem foldl_zip_spec (nc : ℕ) (rows : List (List ℝ)) :
    ∀ (init : List ℝ), init.length = nc → (∀ r ∈ rows, r.length = nc) →
      (rows.foldl (fun acc r => List.zipWith (· + ·) acc r) init).length = nc ∧
      (∀ c, (rows.foldl (fun acc r => List.zipWith (· + ·) acc r) init).getD c 0 =
        init.getD c 0 + (rows.map (fun r => r.getD c 0)).sum) ∧
      (rows.foldl (fun acc r => List.zipWith (· + ·) acc r) init).sum =
        init.sum + (rows.map List.sum).sum := by
  induction rows with
  | nil => intro init h _; simp [h]
  | cons r rs ih =>
    intro init h hrows
    have hr : r.length = nc := hrows r (List.mem_cons_self r rs)
    have hlen : (List.zipWith (· + ·) init r).length = nc := by
      rw [List.length_zipWith, h, hr, min_self]
    obtain ⟨ihlen, ihgetD, ihsum⟩ :=
      ih (List.zipWith (· + ·) init r) hlen (fun s hs => hrows s (List.mem_cons_of_mem r hs))
    refine ⟨ihlen, ?_, ?_⟩
    · intro c
      rw [List.foldl_cons, ihgetD c, zipWith_add_getD init r (by rw [h, hr]) c]
      simp only [List.map_cons, List.sum_cons]
      ring
    · rw [List.foldl_cons, ihsum, zipWith_add_sum init r (by rw [h, hr])]
      simp only [List.map_cons, List.sum_cons]
      ring

theorem selectRows_eq_map (itemList : List ℕ) (P : List (List ℝ))
    (h : ∀ i ∈ itemList, i < P.length) :
    selectRows itemList P = some (itemList.map (fun i => P.getD i [])) := by
  induction itemList with
  | nil => simp [selectRows]
  | cons i rest ih =>
    have hip : i < P.length := h i (List.mem_cons_self i rest)
    have hget : P.get? i = some (P.getD i []) := by
      rw [List.getD_eq_getElem _ _ hip, List.get?_eq_getElem?, List.getElem?_eq_getElem hip]
    rw [selectRows, hget, ih (fun j hj => h j (List.mem_cons_of_mem i hj))]
    simp

theorem sum_map_div (l : List ℝ) (c : ℝ) : (l.map (fun x => x / c)).sum = l.sum / c := by
  induction l with
  | nil => simp
  | cons a as ih => simp [ih, add_div]

theorem sum_range_getD (l : List ℝ) : ∑ i in Finset.range l.length, l.getD i 0 = l.sum := by
  induction l with
  | nil => simp
  | cons a as ih =>
    rw [List.length_cons, Finset.sum_range_succ']
    simp only [List.getD_cons_succ, List.getD_cons_zero, List.sum_cons]
    rw [ih]
    ring

theorem list_sum_range (f : ℕ → ℝ) (n : ℕ) :
    ((List.range n).map f).sum = ∑ i in Finset.range n, f i := by
  induction n with
  | zero => simp
  | succ n ih =>
    rw [List.range_succ, List.map_append, List.sum_append, Finset.sum_range_succ, ih]
    simp

theorem getD_nonneg (l : List ℝ) (h : ∀ x ∈ l, 0 ≤ x) (c : ℕ) : 0 ≤ l.getD c 0 := by
  rcases lt_or_le c l.length with hc | hc
  · rw [List.getD_eq_getElem _ _ hc]
    exact h _ (List.getElem_mem _)
  · rw [List.getD_eq_default _ _ hc]

/-- Per-term lower bound from log x <= x - 1. -/
theorem klterm_lower (pv qv : ℝ) (hp : 0 < pv) (hq : 0 ≤ qv) :
    (pv - ((1 - 1 / 100) * qv + (1 / 100) * pv)) / Real.log 2 ≤
      pv * Real.logb 2 (pv / ((1 - 1 / 100) * qv + (1 / 100) * pv)) := by
  set qt : ℝ := (1 - 1 / 100) * qv + (1 / 100) * pv with hqt
  have hqt0 : 0 < qt := by rw [hqt]; nlinarith
  have hlog2 : 0 < Real.log 2 := Real.log_pos (by norm_num)
  have h1 : Real.log (qt / pv) ≤ qt / pv - 1 := Real.log_le_sub_one_of_pos (by positivity)
  have h2 : Real.log (pv / qt) = -Real.log (qt / pv) := by
    rw [← Real.log_inv]
    congr 1
    rw [inv_div]
  have h3 : pv - qt ≤ pv * Real.log (pv / qt) := by
    rw [h2]
    have h4 := mul_le_mul_of_nonneg_left h1 hp.le
    have h5 : pv * (qt / pv - 1) = qt - pv := by
      field_simp
    nlinarith
  have h6 : (pv - qt) / Real.log 2 ≤ pv * Real.log (pv / qt) / Real.log 2 :=
    (div_le_div_right hlog2).mpr h3
  rw [Real.logb]
  calc (pv - qt) / Real.log 2 ≤ pv * Real.log (pv / qt) / Real.log 2 := h6
    _ = pv * (Real.log (pv / qt) / Real.log 2) := by ring

/-- Gibbs-style inequality: the smoothed score of valid distributions is
non-negative, since the smoothed masses at the support of `p` sum to at most 1. -/
theorem klScore_nonneg (p q : List ℝ) (hlen : p.length = q.length)
    (hpnn : ∀ x ∈ p, 0 ≤ x) (hqnn : ∀ x ∈ q, 0 ≤ x)
    (hpsum : p.sum = 1) (hqsum : q.sum = 1) : 0 ≤ klScore p q := by
  classical
  have hlog2 : 0 < Real.log 2 := Real.log_pos (by norm_num)
  rw [klScore, list_sum_range]
  set A := (Finset.range p.length).filter (fun i => p.getD i 0 ≠ 0) with hA
  have hfil : ∑ i in A, klTerm (1 / 100) p q i =
      ∑ i in Finset.range p.length, klTerm (1 / 100) p q i := by
    rw [hA]
    apply Finset.sum_filter_of_ne
    intro x _ hne
    intro hzz
    exact hne (by rw [klTerm, if_pos hzz])
  rw [← hfil]
  have hsumA : ∑ i in A, p.getD i 0 = 1 := by
    rw [hA, Finset.sum_filter_of_ne (fun x _ h => h), sum_range_getD, hpsum]
  have hsumqA : ∑ i in A, q.getD i 0 ≤ 1 := by
    have h1 : ∑ i in A, q.getD i 0 ≤ ∑ i in Finset.range p.length, q.getD i 0 := by
      apply Finset.sum_le_sum_of_subset_of_nonneg (Finset.filter_subset _ _)
      intro i _ _
      exact getD_nonneg q hqnn i
    rw [hlen, sum_range_getD, hqsum] at h1
    exact h1
  have hterm : ∀ i ∈ A,
      (p.getD i 0 - ((1 - 1 / 100) * q.getD i 0 + (1 / 100) * p.getD i 0)) / Real.log 2 ≤
        klTerm (1 / 100) p q i := by
    intro i hi
    have hne : p.getD i 0 ≠ 0 := (Finset.mem_filter.mp hi).2
    have hpv : 0 < p.getD i 0 := lt_of_le_of_ne (getD_nonneg p hpnn i) (Ne.symm hne)
    have hlm := klterm_lower (p.getD i 0) (q.getD i 0) hpv (getD_nonneg q hqnn i)
    rw [klTerm, if_neg hne]
    exact hlm
  have hlow : (0:ℝ) ≤
      ∑ i in A, (p.getD i 0 - ((1 - 1 / 100) * q.getD i 0 + (1 / 100) * p.getD i 0)) /
        Real.log 2 := by
    rw [← Finset.sum_div]
    apply div_nonneg _ hlog2.le
    have hexp : ∑ i in A, (p.getD i 0 - ((1 - 1 / 100) * q.getD i 0 + (1 / 100) * p.getD i 0)) =
        (∑ i in A, p.getD i 0) -
          ((1 - 1 / 100) * (∑ i in A, q.getD i 0) + (1 / 100) * (∑ i in A, p.getD i 0)) := by
      rw [Finset.mul_sum, Finset.mul_sum, ← Finset.sum_add_distrib, ← Finset.sum_sub_distrib]
    rw [hexp, hsumA]
    nlinarith [hsumqA]
  calc (0:ℝ) ≤ _ := hlow
    _ ≤ ∑ i in A, klTerm (1 / 100) p q i := Finset.sum_le_sum hterm

set_option maxRecDepth 4000 in
/-- Numeric bracketing of log2 100 to four decimal places, via
2 ^ 66438 < 100 ^ 10000 < 2 ^ 66439. -/
theorem logb_two_hundred_bounds :
    (6.6438 : ℝ) < Real.logb 2 100 ∧ Real.logb 2 100 < 6.6439 := by
  have h2 : (1:ℝ) < 2 := one_lt_two
  constructor
  · have hnat : (2:ℕ) ^ 66438 < 100 ^ 10000 := by norm_num
    have hreal : (2:ℝ) ^ (66438:ℕ) < (100:ℝ) ^ (10000:ℕ) := by exact_mod_cast hnat
    have hlt : Real.logb 2 ((2:ℝ) ^ (66438:ℕ)) < Real.logb 2 ((100:ℝ) ^ (10000:ℕ)) :=
      Real.logb_lt_logb h2 (by positivity) hreal
    rw [Real.logb_pow, Real.logb_pow, Real.logb_self_eq_one h2] at hlt
    push_cast at hlt
    norm_num at hlt ⊢
    linarith
  · have hnat : (100:ℕ) ^ 10000 < 2 ^ 66439 := by norm_num
    have hreal : (100:ℝ) ^ (10000:ℕ) < (2:ℝ) ^ (66439:ℕ) := by exact_mod_cast hnat
    have hlt : Real.logb 2 ((100:ℝ) ^ (10000:ℕ)) < Real.logb 2 ((2:ℝ) ^ (66439:ℕ)) :=
      Real.logb_lt_logb h2 (by positivity) hreal
    rw [Real.logb_pow, Real.logb_pow, Real.logb_self_eq_one h2] at hlt
    push_cast at hlt
    norm_num at hlt ⊢
    linarith

theorem getD_replicate_zero (n c : ℕ) : (List.replicate n (0:ℝ)).getD c 0 = 0 := by
  rcases lt_or_le c n with h | h
  · rw [List.getD_eq_getElem _ _ (by simpa using h)]
    simp
  · rw [List.getD_eq_default _ _ (by simpa using h)]

theorem sum_map_one (l : List ℕ) : (l.map (fun _ => (1:ℝ))).sum = l.length := by
  induction l with
  | nil => simp
  | cons a as ih =>
    simp only [List.map_cons, List.sum_cons, List.length_cons, ih]
    push_cast
    ring

/-- Claim C1: for every pair of equal valid distributions (entrywise equal,
non-negative, summing to 1) and the hard-coded smoothing parameter
alpha = 0.01, the scorer returns exactly 0: smoothing leaves the value at
every supported category unchanged, so every included term is p(c) * log2 1 = 0. -/
theorem C1_score_self_eq_zero (p q : List ℝ) (hq : q = p)
    (hnn : ∀ x ∈ p, 0 ≤ x) (hsum : p.sum = 1) :
    (KullbackLeiblerDivergence p q).map Prod.fst = some 0 := by
  rw [hq]
  obtain ⟨qf, h1, _, _, _⟩ := KLD_eq_spec p p le_rfl
  rw [h1, Option.map_some']
  rw [klScore_self]

/-- Claim C1 witness at the concrete valid distribution [1/2, 1/2, 0]. -/
theorem C1_witness :
    (KullbackLeiblerDivergence [(1:ℝ)/2, 1/2, 0] [1/2, 1/2, 0]).map Prod.fst = some 0 :=
  C1_score_self_eq_zero _ _ rfl (by norm_num) (by norm_num)

/-- Claim C2: for every pair of valid distributions of the same length the
scorer returns a (finite) real number that is non-negative. -/
theorem C2_score_nonneg (p q : List ℝ) (hlen : p.length = q.length)
    (hpnn : ∀ x ∈ p, 0 ≤ x) (hqnn : ∀ x ∈ q, 0 ≤ x)
    (hpsum : p.sum = 1) (hqsum : q.sum = 1) :
    ∃ r, (KullbackLeiblerDivergence p q).map Prod.fst = some r ∧ 0 ≤ r := by
  obtain ⟨qf, h1, _, _, _⟩ := KLD_eq_spec p q hlen.le
  exact ⟨klScore p q, by rw [h1, Option.map_some'],
    klScore_nonneg p q hlen hpnn hqnn hpsum hqsum⟩

/-- Claim C2 witness at p = [1/2, 1/2], q = [1, 0]. -/
theorem C2_witness :
    ∃ r, (KullbackLeiblerDivergence [(1:ℝ)/2, 1/2] [1, 0]).map Prod.fst = some r ∧ 0 ≤ r :=
  C2_score_nonneg [(1:ℝ)/2, 1/2] [1, 0] rfl (by norm_num) (by norm_num)
    (by norm_num) (by norm_num)

/-- Claim C3: a category with p(c) = 0 contributes exactly 0 to the score, and
changing q at any index where p is zero (to any value, including 0) never
changes the returned score. -/
theorem C3_zero_p_irrelevant (p q : List ℝ) (j : ℕ) (v : ℝ) (hpj : p.getD j 0 = 0) :
    klTerm (1 / 100) p q j = 0 ∧
    (KullbackLeiblerDivergence p (q.set j v)).map Prod.fst =
      (KullbackLeiblerDivergence p q).map Prod.fst := by
  refine ⟨by rw [klTerm, if_pos hpj], ?_⟩
  rw [KullbackLeiblerDivergence, KullbackLeiblerDivergence]
  apply kldGo_congr
  · exact List.length_set q j v
  · intro m hm
    have hmj : m ≠ j := fun h => hm (by rw [h]; exact hpj)
    rw [List.get?_set_ne _ _ (fun h => hmj h.symm)]

/-- Claim C3 witness: overwriting q at index 0 (where p is zero) with 7. -/
theorem C3_witness :
    klTerm (1 / 100) [0, 1] [(1:ℝ)/3, 2/3] 0 = 0 ∧
    (KullbackLeiblerDivergence [0, 1] (([(1:ℝ)/3, 2/3]).set 0 7)).map Prod.fst =
      (KullbackLeiblerDivergence [0, 1] [(1:ℝ)/3, 2/3]).map Prod.fst :=
  C3_zero_p_irrelevant [0, 1] [(1:ℝ)/3, 2/3] 0 7 (by norm_num)

/-- Claim C4: on p = [1, 0, 0], q = [0, 1, 0] the scorer returns
1 * log2 (1 / 0.01) = log2 100; the spec-level smoothed vector
(1 - alpha) q + alpha p is [0.01, 0.99, 0]; and log2 100 lies strictly between
6.6438 and 6.6439, i.e. it is approximately 6.6439 bits and the logarithm is base 2. -/
theorem C4_concrete_example :
    (KullbackLeiblerDivergence [(1:ℝ), 0, 0] [0, 1, 0]).map Prod.fst =
      some (Real.logb 2 100) ∧
    Real.logb 2 100 = 1 * Real.logb 2 (1 / ((1 - 1 / 100) * 0 + (1 / 100) * 1)) ∧
    List.zipWith (fun qc pc => (1 - 1 / 100) * qc + (1 / 100) * pc)
      [0, 1, 0] [(1:ℝ), 0, 0] = [1 / 100, 99 / 100, 0] ∧
    (6.6438 : ℝ) < Real.logb 2 100 ∧ Real.logb 2 100 < 6.6439 := by
  refine ⟨?_, by norm_num, by norm_num, logb_two_hundred_bounds.1, logb_two_hundred_bounds.2⟩
  show (kldGo (1/100) _ (List.range 3) 0 _).map Prod.fst = _
  norm_num [kldGo, List.range_succ, List.get?, List.set]

/-- Claim C5 counterexample: the scorer is not a pure function of its inputs:
on p = [1], q = [1/2] it overwrites the entry of q with the smoothed value
101/200, which differs from 1/2, and scoring again with the mutated vector
returns a different value. -/
theorem C5_counterexample :
    KullbackLeiblerDivergence [(1:ℝ)] [1/2] = some (Real.logb 2 (200/101), [101/200]) ∧
    ([101/200] : List ℝ) ≠ [1/2] ∧
    (KullbackLeiblerDivergence [(1:ℝ)] [101/200]).map Prod.fst =
      some (Real.logb 2 (20000/10199)) ∧
    Real.logb 2 (20000/10199) ≠ Real.logb 2 (200/101) := by
  refine ⟨?_, by norm_num, ?_, ?_⟩
  · show kldGo (1/100) _ (List.range 1) 0 _ = _
    norm_num [kldGo, List.range_succ, List.get?, List.set]
  · show (kldGo (1/100) _ (List.range 1) 0 _).map Prod.fst = _
    norm_num [kldGo, List.range_succ, List.get?, List.set]
  · apply ne_of_lt
    apply Real.logb_lt_logb one_lt_two (by norm_num)
    norm_num

/-- Claim C5 (amended): the scorer is deterministic over input values but
mutates `recommendedDist` in place: after a call on same-length inputs, every
entry at an index where p is non-zero holds the smoothed value
(1 - alpha) * q + alpha * p, and all other entries are unchanged. -/
theorem C5_mutation (p q : List ℝ) (hlen : p.length = q.length) :
    ∃ r qf, KullbackLeiblerDivergence p q = some (r, qf) ∧ qf.length = q.length ∧
      ∀ i, qf.getD i 0 = if p.getD i 0 = 0 then q.getD i 0
        else (1 - 1 / 100) * q.getD i 0 + (1 / 100) * p.getD i 0 := by
  obtain ⟨qf, h1, h2, h3, h4⟩ := KLD_eq_spec p q hlen.le
  refine ⟨klScore p q, qf, h1, h2, ?_⟩
  intro i
  by_cases hpz : p.getD i 0 = 0
  · rw [if_pos hpz]
    have h5 := h4 i (by rintro ⟨_, hne⟩; exact hne hpz)
    rw [List.getD_eq_getD_get?, List.getD_eq_getD_get?, h5]
  · rw [if_neg hpz]
    rcases lt_or_le i p.length with hip | hip
    · have h5 := h3 i hip hpz
      rw [List.getD_eq_getD_get?, h5]
      rfl
    · exact absurd (List.getD_eq_default _ _ hip) hpz

/-- Claim C5 (amended) witness at p = [1], q = [1/2]. -/
theorem C5_witness :
    ∃ r qf, KullbackLeiblerDivergence [(1:ℝ)] [1/2] = some (r, qf) ∧ qf.length = 1 ∧
      ∀ i, qf.getD i 0 = if ([(1:ℝ)].getD i 0) = 0 then ([(1:ℝ)/2].getD i 0)
        else (1 - 1 / 100) * ([(1:ℝ)/2].getD i 0) + (1 / 100) * ([(1:ℝ)].getD i 0) :=
  C5_mutation [(1:ℝ)] [1/2] rfl

/-- Claim C6: for every non-empty item list whose ids index valid rows of the
rectangular matrix P, the aggregator returns per category the uniform-weight-1
weighted sum of the selected rows divided by the sum of weights, which equals
the element-wise average of the selected rows (duplicates counted
independently). -/
theorem C6_aggregator_weighted_mean (itemList : List ℕ) (P : List (List ℝ))
    (hne : itemList ≠ [])
    (hvalid : ∀ i ∈ itemList, i < P.length)
    (hrect : ∀ row ∈ P, row.length = ncols P) :
    ∃ d, ComputeGenreDistribution itemList P = some d ∧ d.length = ncols P ∧
      ∀ c, d.getD c 0 =
          (itemList.map (fun i => 1 * (P.getD i []).getD c 0)).sum /
            (itemList.map (fun _ => (1:ℝ))).sum ∧
        d.getD c 0 = (itemList.map (fun i => (P.getD i []).getD c 0)).sum /
          (itemList.length : ℝ) := by
  have hsel := selectRows_eq_map itemList P hvalid
  have hrows : ∀ r ∈ itemList.map (fun i => P.getD i []), r.length = ncols P := by
    intro r hr
    obtain ⟨i, hi, rfl⟩ := List.mem_map.mp hr
    have hip : i < P.length := hvalid i hi
    rw [List.getD_eq_getElem _ _ hip]
    exact hrect _ (List.getElem_mem _)
  obtain ⟨hlen, hgetD, hsum⟩ := foldl_zip_spec (ncols P)
    (itemList.map (fun i => P.getD i [])) (List.replicate (ncols P) 0)
    (List.length_replicate _ _) hrows
  have hCGD : ComputeGenreDistribution itemList P =
      some ((sumRows (ncols P) (itemList.map (fun i => P.getD i []))).map
        (fun x => x / (itemList.length : ℝ))) := by
    rw [ComputeGenreDistribution, hsel]
    rfl
  refine ⟨_, hCGD, ?_, ?_⟩
  · rw [List.length_map]
    exact hlen
  · intro c
    have h0 : (fun x => x / (itemList.length : ℝ)) 0 = 0 := zero_div _
    have hval : (sumRows (ncols P) (itemList.map (fun i => P.getD i []))).getD c 0 /
        (itemList.length : ℝ) =
        (itemList.map (fun i => (P.getD i []).getD c 0)).sum / (itemList.length : ℝ) := by
      rw [show sumRows (ncols P) (itemList.map (fun i => P.getD i [])) =
        (itemList.map (fun i => P.getD i [])).foldl
          (fun acc r => List.zipWith (· + ·) acc r) (List.replicate (ncols P) 0) from rfl]
      rw [hgetD c, getD_replicate_zero, zero_add, List.map_map]
      rfl
    constructor
    · rw [← h0, List.getD_map, h0, hval, sum_map_one]
      simp only [one_mul]
    · rw [← h0, List.getD_map, h0, hval]

/-- Claim C6 witness on a two-item set over a concrete 2 x 2 matrix. -/
theorem C6_witness :
    ∃ d, ComputeGenreDistribution [0, 1] [[(1:ℝ)/2, 1/2], [1, 0]] = some d ∧
      d.length = ncols [[(1:ℝ)/2, 1/2], [1, 0]] ∧
      ∀ c, d.getD c 0 =
          (([0, 1] : List ℕ).map
            (fun i => 1 * (([[(1:ℝ)/2, 1/2], [1, 0]]).getD i []).getD c 0)).sum /
            (([0, 1] : List ℕ).map (fun _ => (1:ℝ))).sum ∧
        d.getD c 0 = (([0, 1] : List ℕ).map
            (fun i => (([[(1:ℝ)/2, 1/2], [1, 0]]).getD i []).getD c 0)).sum /
          ((([0, 1] : List ℕ).length : ℝ)) :=
  C6_aggregator_weighted_mean [0, 1] [[(1:ℝ)/2, 1/2], [1, 0]] (by simp)
    (by intro i hi; fin_cases hi <;> norm_num)
    (by intro row hrow; fin_cases hrow <;> simp [ncols])

/-- Claim C7: for every non-empty item list of valid ids into a rectangular
row-normalized matrix (selected rows non-negative, each summing to 1), the
aggregator output is a valid distribution: every entry non-negative and the
entries sum to exactly 1, hence within 1e-9 of 1. -/
theorem C7_aggregator_distribution (itemList : List ℕ) (P : List (List ℝ))
    (hne : itemList ≠ [])
    (hvalid : ∀ i ∈ itemList, i < P.length)
    (hrect : ∀ row ∈ P, row.length = ncols P)
    (hnn : ∀ i ∈ itemList, ∀ x ∈ P.getD i [], 0 ≤ x)
    (hsum1 : ∀ i ∈ itemList, (P.getD i []).sum = 1) :
    ∃ d, ComputeGenreDistribution itemList P = some d ∧
      (∀ x ∈ d, 0 ≤ x) ∧ d.sum = 1 ∧ |d.sum - 1| < 1 / 10 ^ 9 := by
  have hsel := selectRows_eq_map itemList P hvalid
  have hrows : ∀ r ∈ itemList.map (fun i => P.getD i []), r.length = ncols P := by
    intro r hr
    obtain ⟨i, hi, rfl⟩ := List.mem_map.mp hr
    have hip : i < P.length := hvalid i hi
    rw [List.getD_eq_getElem _ _ hip]
    exact hrect _ (List.getElem_mem _)
  obtain ⟨hlen, hgetD, hsum⟩ := foldl_zip_spec (ncols P)
    (itemList.map (fun i => P.getD i [])) (List.replicate (ncols P) 0)
    (List.length_replicate _ _) hrows
  have hfold : sumRows (ncols P) (itemList.map (fun i => P.getD i [])) =
      (itemList.map (fun i => P.getD i [])).foldl
        (fun acc r => List.zipWith (· + ·) acc r) (List.replicate (ncols P) 0) := rfl
  have hCGD : ComputeGenreDistribution itemList P =
      some ((sumRows (ncols P) (itemList.map (fun i => P.getD i []))).map
        (fun x => x / (itemList.length : ℝ))) := by
    rw [ComputeGenreDistribution, hsel]
    rfl
  have hlenne : (itemList.length : ℝ) ≠ 0 := by
    exact_mod_cast fun h => hne (List.length_eq_zero.mp h)
  have hssum : (sumRows (ncols P) (itemList.map (fun i => P.getD i []))).sum =
      (itemList.length : ℝ) := by
    rw [hfold, hsum, List.sum_replicate, smul_zero, zero_add, List.map_map]
    have hmap : (itemList.map (List.sum ∘ fun i => P.getD i [])) =
        itemList.map (fun _ => (1:ℝ)) := by
      apply List.map_congr_left
      intro i hi
      exact hsum1 i hi
    rw [hmap, sum_map_one]
  have hdsum : ((sumRows (ncols P) (itemList.map (fun i => P.getD i []))).map
      (fun x => x / (itemList.length : ℝ))).sum = 1 := by
    rw [sum_map_div, hssum, div_self hlenne]
  refine ⟨_, hCGD, ?_, hdsum, by rw [hdsum]; norm_num⟩
  intro x hx
  obtain ⟨y, hy, rfl⟩ := List.mem_map.mp hx
  apply div_nonneg _ (Nat.cast_nonneg _)
  obtain ⟨c, hc, rfl⟩ := List.mem_iff_getElem.mp hy
  rw [← List.getD_eq_getElem _ 0 hc, hfold, hgetD c, getD_replicate_zero, zero_add]
  apply List.sum_nonneg
  intro t ht
  obtain ⟨r, hr, rfl⟩ := List.mem_map.mp ht
  obtain ⟨i, hi, rfl⟩ := List.mem_map.mp hr
  exact getD_nonneg _ (hnn i hi) c

/-- Claim C7 witness on a two-item set over a concrete row-normalized matrix. -/
theorem C7_witness :
    ∃ d, ComputeGenreDistribution [0, 1] [[(1:ℝ)/2, 1/2], [1, 0]] = some d ∧
      (∀ x ∈ d, 0 ≤ x) ∧ d.sum = 1 ∧ |d.sum - 1| < 1 / 10 ^ 9 :=
  C7_aggregator_distribution [0, 1] [[(1:ℝ)/2, 1/2], [1, 0]] (by simp)
    (by intro i hi; fin_cases hi <;> norm_num)
    (by intro row hrow; fin_cases hrow <;> simp [ncols])
    (by intro i hi; fin_cases hi <;> norm_num)
    (by intro i hi; fin_cases hi <;> norm_num)

/-- Claim C8 counterexample: with len(p) = 1 and len(q) = 2 the scorer does not
fail at all: it computes and returns a score, ignoring the extra entry of q. -/
theorem C8_counterexample :
    ([(1:ℝ)].length ≠ ([1/2, 1/2] : List ℝ).length) ∧
    (KullbackLeiblerDivergence [(1:ℝ)] [1/2, 1/2]).map Prod.fst =
      some (Real.logb 2 (200 / 101)) := by
  constructor
  · norm_num
  · show (kldGo (1/100) _ (List.range 1) 0 _).map Prod.fst = _
    norm_num [kldGo, List.range_succ, List.get?, List.set]

/-- Claim C8 (amended): the scorer performs no dimension validation. It fails
(modelling the out-of-range access Python raises mid-loop, not an eager
DimensionMismatch) exactly when some index i < len(p) has p[i] non-zero and
len(q) <= i; in every other mismatched case it silently returns a score. -/
theorem C8_no_dimension_check (p q : List ℝ) :
    KullbackLeiblerDivergence p q = none ↔
      ∃ i < p.length, p.getD i 0 ≠ 0 ∧ q.length ≤ i := by
  rw [KullbackLeiblerDivergence,
    kldGo_none_iff (1 / 100) p (List.range p.length) 0 q (fun i hi => List.mem_range.mp hi)]
  constructor
  · rintro ⟨i, hi, h1, h2⟩
    exact ⟨i, List.mem_range.mp hi, h1, h2⟩
  · rintro ⟨i, hi, h1, h2⟩
    exact ⟨i, List.mem_range.mpr hi, h1, h2⟩

/-- Claim C8 (amended) witness: p = [1, 1], q = [1/2] fails at index 1. -/
theorem C8_witness : KullbackLeiblerDivergence [(1:ℝ), 1] [1/2] = none :=
  (C8_no_dimension_check [(1:ℝ), 1] [1/2]).mpr ⟨1, by norm_num, by norm_num, by norm_num⟩

/-- Claim C9 counterexample: the aggregator called on the empty item list does
not fail and no EmptyItemSet error is surfaced: the all-zero column sums are
divided by len = 0 (NaN entries in numpy; 0 under the real-number convention
x / 0 = 0). -/
theorem C9_counterexample :
    ComputeGenreDistribution [] [[(1:ℝ)/2, 1/2]] = some [0, 0] ∧
    ComputeGenreDistribution [] [[(1:ℝ)/2, 1/2]] ≠ none := by
  have h : ComputeGenreDistribution [] [[(1:ℝ)/2, 1/2]] = some [0, 0] := by
    norm_num [ComputeGenreDistribution, selectRows, ncols, sumRows, List.replicate]
  exact ⟨h, by rw [h]; exact fun hc => Option.noConfusion hc⟩

/-- Claim C9 (amended): the aggregator performs no emptiness check: on the
empty item list it returns the zero-divided row of length ncols P rather than
surfacing an error to the caller. -/
theorem C9_no_empty_check (P : List (List ℝ)) :
    ComputeGenreDistribution [] P = some (List.replicate (ncols P) 0) := by
  rw [ComputeGenreDistribution, selectRows]
  simp only [Option.map_some']
  congr 1
  rw [show sumRows (ncols P) [] = List.replicate (ncols P) 0 from rfl]
  rw [List.map_replicate]
  norm_num

/-- Claim C10: calling the scorer with an all-zero interactDist returns 0.0
without raising any error, performing no distribution-validity check, and
leaves every entry of recommendedDist unchanged: every index is skipped and
the initial accumulator 0.0 is returned. -/
theorem C10_all_zero_p_returns_zero (p q : List ℝ) (hz : ∀ x ∈ p, x = 0) :
    KullbackLeiblerDivergence p q = some (0, q) := by
  rw [KullbackLeiblerDivergence]
  exact kldGo_zero (1 / 100) p hz (List.range p.length) (fun i hi => List.mem_range.mp hi) 0 q

/-- Claim C10 witness at p = [0, 0] and (shorter, non-distribution) q = [1/3]. -/
theorem C10_witness : KullbackLeiblerDivergence [0, 0] [(1:ℝ)/3] = some (0, [(1:ℝ)/3]) :=
  C10_all_zero_p_returns_zero [0, 0] [(1:ℝ)/3] (by norm_num)
